import Mathlib

/-!
Verification of the audio capture pipeline of `radio_listener`
(`src/radio_listener/audio_capture.py`, `main.py`, `block_recorder.py`).

The stateful Python code is shallowly embedded: the chunk buffer
(`queue.Queue`) becomes a `List`, each loop becomes structural recursion
over a list of externally-determined iteration outcomes, and the
`float32` sample arithmetic (division of a 16-bit integer by the power
of two `32768.0`, which is exact in IEEE binary32) is embedded in `ℚ`.
-/

namespace RadioListener

/-! ### Ring buffer admission (`AudioCapture._capture_loop`, lines 237-247)

`self._buffer = queue.Queue(maxsize=buffer_size * 2)` (line 49).  A push is
`put(block=False)`; on `queue.Full` the handler removes the oldest entry
with `get_nowait()` and retries the `put`; `queue.Empty` from that
`get_nowait` drops the new chunk.  Python's `queue.Queue` treats
`maxsize <= 0` as unbounded, modelled here by `cap = 0`. -/

/-- One non-blocking push with the drop-oldest handler of
`_capture_loop` (audio_capture.py lines 238-247). -/
def tryPush {α : Type} (cap : Nat) (buf : List α) (c : α) : List α :=
  if cap = 0 ∨ buf.length < cap then buf ++ [c]
  else
    match buf with
    | [] => buf
    | _ :: t => t ++ [c]

lemma tryPush_of_room {α : Type} {cap : Nat} {buf : List α} (c : α)
    (h : cap = 0 ∨ buf.length < cap) : tryPush cap buf c = buf ++ [c] := by
  simp [tryPush, h]

lemma tryPush_of_full {α : Type} {cap : Nat} {b : α} {t : List α} (c : α)
    (h : ¬ (cap = 0 ∨ (b :: t).length < cap)) : tryPush cap (b :: t) c = t ++ [c] := by
  simp only [tryPush, if_neg h]

lemma tryPush_length_le {α : Type} {cap : Nat} (hc : 0 < cap) (buf : List α) (c : α)
    (h : buf.length ≤ cap) : (tryPush cap buf c).length ≤ cap := by
  by_cases hr : cap = 0 ∨ buf.length < cap
  · rw [tryPush_of_room c hr]
    simp
    omega
  · rcases buf with _ | ⟨b, t⟩
    · exact absurd (Or.inr (by simpa using hc)) hr
    · rw [tryPush_of_full c hr]
      simp at h ⊢
      omega

lemma foldl_tryPush_length_le {α : Type} {cap : Nat} (hc : 0 < cap)
    (cs : List α) (buf : List α) (h : buf.length ≤ cap) :
    (cs.foldl (tryPush cap) buf).length ≤ cap := by
  induction cs generalizing buf with
  | nil => exact h
  | cons c cs ih => exact ih _ (tryPush_length_le hc _ _ h)

lemma tryPush_full {α : Type} {cap : Nat} (hc : 0 < cap) (buf : List α) (c : α)
    (h : buf.length = cap) : tryPush cap buf c = buf.tail ++ [c] := by
  rcases buf with _ | ⟨b, t⟩
  · simp at h
    omega
  · have hr : ¬ (cap = 0 ∨ (b :: t).length < cap) := by
      push_neg
      omega
    rw [tryPush_of_full c hr]
    rfl

/-- **C1.** Capacity and drop-oldest admission: a buffer created with
`buffer_size_seconds = bs` has capacity `2 * bs`; any sequence of pushes
starting from the empty buffer keeps the length at most `2 * bs`, and a
push on a buffer at capacity removes exactly the oldest chunk and
appends the new one (the push is a total function: it never blocks, and
the new chunk is always admitted). -/
theorem ringbuffer_capacity_drop_oldest {α : Type} (bs : Nat) (hbs : 0 < bs) :
    (∀ cs : List α, (cs.foldl (tryPush (2 * bs)) []).length ≤ 2 * bs) ∧
    (∀ (buf : List α) (c : α), buf.length = 2 * bs →
      tryPush (2 * bs) buf c = buf.tail ++ [c] ∧
      (tryPush (2 * bs) buf c).length = 2 * bs) := by
  have hcap : 0 < 2 * bs := by omega
  refine ⟨fun cs => foldl_tryPush_length_le hcap cs [] (by simp), ?_⟩
  intro buf c h
  refine ⟨tryPush_full hcap buf c h, ?_⟩
  rw [tryPush_full hcap buf c h]
  rcases buf with _ | ⟨b, t⟩
  · simp at h
    omega
  · simp at h ⊢
    omega

/-- Concrete instance of `ringbuffer_capacity_drop_oldest` at
`buffer_size_seconds = 1` (capacity 2). -/
theorem ringbuffer_capacity_drop_oldest_witness :
    ((([10, 20, 30] : List Nat).foldl (tryPush 2) []).length ≤ 2) ∧
    tryPush 2 [10, 20] (30 : Nat) = [20, 30] := by
  have h := ringbuffer_capacity_drop_oldest (α := Nat) 1 (by decide)
  refine ⟨h.1 [10, 20, 30], ?_⟩
  have h2 := (h.2 [10, 20] 30 (by decide)).1
  simpa using h2

/-! ### FIFO-with-loss delivery

A trace model of the producer/consumer use of `self._buffer`: pushes come
from `_capture_loop` (lines 237-247) and pops from the `self._buffer.get`
call in `read_chunk` (line 276).  Chunks are identified by their push
index (`next`).  A pop on an empty buffer models a `queue.Empty` timeout
and delivers nothing. -/

inductive BufOp : Type
  | push : BufOp
  | pop : BufOp

structure BufTrace where
  buf : List Nat
  next : Nat
  popped : List Nat
  evicted : List Nat

def initTrace : BufTrace := ⟨[], 0, [], []⟩

/-- One buffer operation.  `push` follows `_capture_loop`'s
`put`/`get_nowait` logic exactly as `tryPush` does, additionally logging
the evicted chunk; `pop` follows `read_chunk`'s FIFO `get`. -/
def stepOp (cap : Nat) : BufTrace → BufOp → BufTrace
  | ⟨buf, next, popped, evicted⟩, .push =>
    if cap = 0 ∨ buf.length < cap then ⟨buf ++ [next], next + 1, popped, evicted⟩
    else
      match buf with
      | [] => ⟨[], next + 1, popped, evicted⟩
      | h :: t => ⟨t ++ [next], next + 1, popped, evicted ++ [h]⟩
  | ⟨buf, next, popped, evicted⟩, .pop =>
    match buf with
    | [] => ⟨[], next, popped, evicted⟩
    | h :: t => ⟨t, next, popped ++ [h], evicted⟩

def runOps (cap : Nat) (ops : List BufOp) : BufTrace :=
  ops.foldl (stepOp cap) initTrace

lemma stepOp_push_room (cap next : Nat) (buf popped evicted : List Nat)
    (hr : cap = 0 ∨ buf.length < cap) :
    stepOp cap ⟨buf, next, popped, evicted⟩ .push =
      ⟨buf ++ [next], next + 1, popped, evicted⟩ := by
  simp [stepOp, hr]

lemma stepOp_push_full_nil (cap next : Nat) (popped evicted : List Nat)
    (hr : ¬ (cap = 0 ∨ ([] : List Nat).length < cap)) :
    stepOp cap ⟨[], next, popped, evicted⟩ .push =
      ⟨[], next + 1, popped, evicted⟩ := by
  simp only [stepOp, if_neg hr]

lemma stepOp_push_full_cons (cap b0 next : Nat) (t popped evicted : List Nat)
    (hr : ¬ (cap = 0 ∨ (b0 :: t).length < cap)) :
    stepOp cap ⟨b0 :: t, next, popped, evicted⟩ .push =
      ⟨t ++ [next], next + 1, popped, evicted ++ [b0]⟩ := by
  simp only [stepOp, if_neg hr]

lemma stepOp_pop_nil (cap next : Nat) (popped evicted : List Nat) :
    stepOp cap ⟨[], next, popped, evicted⟩ .pop = ⟨[], next, popped, evicted⟩ := rfl

lemma stepOp_pop_cons (cap b0 next : Nat) (t popped evicted : List Nat) :
    stepOp cap ⟨b0 :: t, next, popped, evicted⟩ .pop =
      ⟨t, next, popped ++ [b0], evicted⟩ := rfl

/-- Trace invariant: the already-popped chunks followed by the resident
chunks are in strictly increasing push order, every evicted chunk is
older than every resident chunk and was never popped, and all recorded
indices are below the next fresh index. -/
def TraceInv (s : BufTrace) : Prop :=
  List.Pairwise (· < ·) (s.popped ++ s.buf) ∧
  (∀ e ∈ s.evicted, ∀ b ∈ s.buf, e < b) ∧
  (∀ e ∈ s.evicted, e ∉ s.popped) ∧
  (∀ x ∈ s.popped, x < s.next) ∧
  (∀ x ∈ s.buf, x < s.next) ∧
  (∀ x ∈ s.evicted, x < s.next)

lemma TraceInv.intro' {buf popped evicted : List Nat} {next : Nat}
    (h1 : List.Pairwise (· < ·) (popped ++ buf))
    (h2 : ∀ e ∈ evicted, ∀ b ∈ buf, e < b)
    (h3 : ∀ e ∈ evicted, e ∉ popped)
    (hp : ∀ x ∈ popped, x < next)
    (hb : ∀ x ∈ buf, x < next)
    (he : ∀ x ∈ evicted, x < next) :
    TraceInv ⟨buf, next, popped, evicted⟩ :=
  ⟨h1, h2, h3, hp, hb, he⟩

lemma initTrace_inv : TraceInv initTrace := by
  simp [TraceInv, initTrace]

lemma stepOp_inv (cap : Nat) (s : BufTrace) (op : BufOp) (h : TraceInv s) :
    TraceInv (stepOp cap s op) := by
  obtain ⟨buf, next, popped, evicted⟩ := s
  obtain ⟨h1, h2, h3, hp, hb, he⟩ := h
  simp only at h1 h2 h3 hp hb he
  cases op with
  | push =>
    by_cases hr : cap = 0 ∨ buf.length < cap
    · rw [stepOp_push_room cap next buf popped evicted hr]
      refine TraceInv.intro' ?_ ?_ h3 ?_ ?_ ?_
      · rw [← List.append_assoc]
        refine List.pairwise_append.mpr ⟨h1, List.pairwise_singleton _ _, ?_⟩
        intro a ha x hx
        rw [List.mem_singleton] at hx
        subst hx
        rcases List.mem_append.mp ha with h' | h'
        · exact hp a h'
        · exact hb a h'
      · intro e hev x hx
        rcases List.mem_append.mp hx with h' | h'
        · exact h2 e hev x h'
        · rw [List.mem_singleton] at h'
          subst h'
          exact he e hev
      · intro x hx
        exact Nat.lt_succ_of_lt (hp x hx)
      · intro x hx
        rcases List.mem_append.mp hx with h' | h'
        · exact Nat.lt_succ_of_lt (hb x h')
        · rw [List.mem_singleton] at h'
          rw [h']
          exact Nat.lt_succ_self next
      · intro x hx
        exact Nat.lt_succ_of_lt (he x hx)
    · cases buf with
      | nil =>
        rw [stepOp_push_full_nil cap next popped evicted hr]
        refine TraceInv.intro' h1 (by simp) h3 ?_ (by simp) ?_
        · intro x hx
          exact Nat.lt_succ_of_lt (hp x hx)
        · intro x hx
          exact Nat.lt_succ_of_lt (he x hx)
      | cons b0 t =>
        rw [stepOp_push_full_cons cap b0 next t popped evicted hr]
        have hbt : List.Pairwise (· < ·) (b0 :: t) :=
          (List.pairwise_append.mp h1).2.1
        have hpb : ∀ a ∈ popped, ∀ x ∈ b0 :: t, a < x :=
          (List.pairwise_append.mp h1).2.2
        refine TraceInv.intro' ?_ ?_ ?_ ?_ ?_ ?_
        · rw [← List.append_assoc]
          refine List.pairwise_append.mpr ⟨?_, List.pairwise_singleton _ _, ?_⟩
          · have hsub : (popped ++ t).Sublist (popped ++ b0 :: t) :=
              (List.sublist_cons_self b0 t).append_left popped
            exact h1.sublist hsub
          · intro a ha x hx
            rw [List.mem_singleton] at hx
            subst hx
            rcases List.mem_append.mp ha with h' | h'
            · exact hp a h'
            · exact hb a (List.mem_cons_of_mem b0 h')
        · intro e hev x hx
          rcases List.mem_append.mp hev with h' | h'
          · rcases List.mem_append.mp hx with h'' | h''
            · exact h2 e h' x (List.mem_cons_of_mem b0 h'')
            · rw [List.mem_singleton] at h''
              rw [h'']
              exact he e h'
          · rw [List.mem_singleton] at h'
            rcases List.mem_append.mp hx with h'' | h''
            · rw [h']
              exact List.rel_of_pairwise_cons hbt h''
            · rw [List.mem_singleton] at h''
              rw [h', h'']
              exact hb b0 (List.mem_cons_self b0 t)
        · intro e hev hmem
          rcases List.mem_append.mp hev with h' | h'
          · exact h3 e h' hmem
          · rw [List.mem_singleton] at h'
            have hmem2 : e ∈ b0 :: t := by
              rw [h']
              exact List.mem_cons_self b0 t
            exact absurd (hpb e hmem e hmem2) (lt_irrefl e)
        · intro x hx
          exact Nat.lt_succ_of_lt (hp x hx)
        · intro x hx
          rcases List.mem_append.mp hx with h' | h'
          · exact Nat.lt_succ_of_lt (hb x (List.mem_cons_of_mem b0 h'))
          · rw [List.mem_singleton] at h'
            rw [h']
            exact Nat.lt_succ_self next
        · intro x hx
          rcases List.mem_append.mp hx with h' | h'
          · exact Nat.lt_succ_of_lt (he x h')
          · rw [List.mem_singleton] at h'
            rw [h']
            exact Nat.lt_succ_of_lt (hb b0 (List.mem_cons_self b0 t))
  | pop =>
    cases buf with
    | nil =>
      rw [stepOp_pop_nil]
      exact TraceInv.intro' h1 (by simp) h3 hp (by simp) he
    | cons b0 t =>
      rw [stepOp_pop_cons]
      have hpb : ∀ a ∈ popped, ∀ x ∈ b0 :: t, a < x :=
        (List.pairwise_append.mp h1).2.2
      refine TraceInv.intro' ?_ ?_ ?_ ?_ ?_ he
      · rw [List.append_assoc]
        simpa using h1
      · intro e hev x hx
        exact h2 e hev x (List.mem_cons_of_mem b0 hx)
      · intro e hev hmem
        rcases List.mem_append.mp hmem with h' | h'
        · exact h3 e hev h'
        · rw [List.mem_singleton] at h'
          have hmem2 : e ∈ b0 :: t := by
            rw [h']
            exact List.mem_cons_self b0 t
          exact absurd (h2 e hev e hmem2) (lt_irrefl e)
      · intro x hx
        rcases List.mem_append.mp hx with h' | h'
        · exact hp x h'
        · rw [List.mem_singleton] at h'
          rw [h']
          exact hb b0 (List.mem_cons_self b0 t)
      · intro x hx
        exact hb x (List.mem_cons_of_mem b0 hx)

lemma runOps_inv_gen (cap : Nat) (ops : List BufOp) (s : BufTrace) (h : TraceInv s) :
    TraceInv (ops.foldl (stepOp cap) s) := by
  induction ops generalizing s with
  | nil => exact h
  | cons op ops ih => exact ih _ (stepOp_inv cap s op h)

lemma runOps_inv (cap : Nat) (ops : List BufOp) : TraceInv (runOps cap ops) :=
  runOps_inv_gen cap ops initTrace initTrace_inv

lemma drop_range' (m : Nat) : ∀ s n : Nat,
    (List.range' s n).drop m = List.range' (s + m) (n - m) := by
  induction m with
  | zero => intro s n; simp
  | succ m ih =>
    intro s n
    cases n with
    | zero => simp
    | succ n =>
      rw [List.range'_succ s n 1]
      simp only [List.drop_succ_cons]
      rw [ih (s + 1) n]
      have e1 : s + (m + 1) = s + 1 + m := by omega
      have e2 : n + 1 - (m + 1) = n - m := by omega
      rw [e1, e2]

lemma drop_range (m n : Nat) :
    (List.range n).drop m = List.range' m (n - m) := by
  rw [List.range_eq_range', drop_range' m 0 n, Nat.zero_add]

/-- After `M` pushes (and no pops) from the fresh buffer, the residents
are exactly the last `min M cap` pushed chunks, the first `M - cap` were
evicted, nothing was popped. -/
lemma runOps_pushes (cap : Nat) (hc : 0 < cap) (M : Nat) :
    runOps cap (List.replicate M .push) =
      ⟨(List.range M).drop (M - cap), M, [], List.range (M - cap)⟩ := by
  induction M with
  | zero =>
    simp [runOps, initTrace, Nat.zero_sub]
  | succ M ih =>
    rw [List.replicate_succ']
    unfold runOps at ih ⊢
    rw [List.foldl_append, ih]
    simp only [List.foldl_cons, List.foldl_nil]
    by_cases hM : M < cap
    · have h0 : M - cap = 0 := by omega
      have h1 : M + 1 - cap = 0 := by omega
      rw [h0, List.drop_zero,
        stepOp_push_room cap M (List.range M) [] (List.range 0)
          (Or.inr (by simp [hM]))]
      rw [h1, List.drop_zero, List.range_succ]
    · have hlen : ((List.range M).drop (M - cap)).length = cap := by
        simp [List.length_drop]
        omega
      have hr : ¬ (cap = 0 ∨ ((List.range M).drop (M - cap)).length < cap) := by
        push_neg
        omega
      obtain ⟨c', hc'⟩ : ∃ c', cap = c' + 1 := ⟨cap - 1, by omega⟩
      have hbuf : (List.range M).drop (M - cap) =
          (M - cap) :: List.range' (M - cap + 1) c' := by
        rw [drop_range]
        have hmm : M - (M - cap) = c' + 1 := by omega
        rw [hmm, List.range'_succ]
      rw [hbuf] at hr ⊢
      rw [stepOp_push_full_cons cap (M - cap) M (List.range' (M - cap + 1) c')
        [] (List.range (M - cap)) hr]
      have hbuf' : List.range' (M - cap + 1) c' ++ [M] =
          (List.range (M + 1)).drop (M + 1 - cap) := by
        rw [drop_range]
        have h2 : M + 1 - (M + 1 - cap) = c' + 1 := by omega
        have h3 : M + 1 - cap = M - cap + 1 := by omega
        rw [h2, h3, List.range'_concat]
        have h4 : M - cap + 1 + 1 * c' = M := by omega
        rw [h4]
      have hev : List.range (M - cap) ++ [M - cap] = List.range (M + 1 - cap) := by
        have h3 : M + 1 - cap = (M - cap) + 1 := by omega
        rw [h3, List.range_succ]
      rw [hbuf', hev]

/-- **C2.** FIFO-with-loss delivery: in every interleaving of pushes and
pops, the popped chunks appear in strictly increasing (hence
non-decreasing) push order; an evicted chunk is never delivered by a
pop; and after `M` pushes with no pops into a buffer of capacity `cap`,
the still-deliverable chunks are exactly the last `min cap M` pushed
ones, in order. -/
theorem fifo_with_loss (cap : Nat) (hc : 0 < cap) :
    (∀ ops : List BufOp, List.Pairwise (· < ·) (runOps cap ops).popped) ∧
    (∀ ops : List BufOp, ∀ e ∈ (runOps cap ops).evicted, e ∉ (runOps cap ops).popped) ∧
    (∀ M : Nat,
      (runOps cap (List.replicate M .push)).buf = (List.range M).drop (M - cap) ∧
      (runOps cap (List.replicate M .push)).buf.length = min cap M) := by
  refine ⟨?_, ?_, ?_⟩
  · intro ops
    have h := (runOps_inv cap ops).1
    exact (List.pairwise_append.mp h).1
  · intro ops
    exact (runOps_inv cap ops).2.2.1
  · intro M
    rw [runOps_pushes cap hc M]
    constructor
    · rfl
    · simp [List.length_drop]
      omega

/-- Concrete instance of `fifo_with_loss` at capacity 2 with three
pushes (one eviction) followed by two pops. -/
theorem fifo_with_loss_witness :
    List.Pairwise (· < ·) (runOps 2 [.push, .push, .push, .pop, .pop]).popped ∧
    (0 : Nat) ∉ (runOps 2 [.push, .push, .push, .pop, .pop]).popped ∧
    (runOps 2 (List.replicate 3 .push)).buf = [1, 2] := by
  have h := fifo_with_loss 2 (by decide)
  refine ⟨h.1 _, h.2.1 _ 0 (by decide), ?_⟩
  have h3 := (h.2.2 3).1
  simpa using h3

/-! ### `AudioCapture.read_chunk` (lines 256-291)

`read_chunk(duration_seconds)` loops `duration_seconds` times, each
iteration calling `self._buffer.get(timeout=duration_seconds + 1)`.  The
pop outcomes are an oracle `get i t` (`i`-th pop, timeout `t`; `none`
models `queue.Empty`).  Chunks are sample lists over `ℚ`. -/

/-- The chunks collected by the `for _ in range(chunks_needed)` loop:
stops at the requested count or at the first timeout. -/
def collectChunks (outs : Nat → Option (List ℚ)) : Nat → Nat → List (List ℚ)
  | _, 0 => []
  | i, n + 1 =>
    match outs i with
    | none => []
    | some c => c :: collectChunks outs (i + 1) n

/-- Number of `self._buffer.get` calls made by the loop. -/
def popAttempts (outs : Nat → Option (List ℚ)) : Nat → Nat → Nat
  | _, 0 => 0
  | i, n + 1 =>
    match outs i with
    | none => 1
    | some _ => 1 + popAttempts outs (i + 1) n

/-- `AudioCapture.read_chunk`: `None` when not alive; collect up to
`duration_seconds` chunks; `None` when nothing was collected; otherwise
the concatenation of the collected chunks. -/
def read_chunk (alive : Bool) (durationSeconds : Nat)
    (get : Nat → Nat → Option (List ℚ)) : Option (List ℚ) :=
  if alive then
    let chunks := collectChunks (fun i => get i (durationSeconds + 1)) 0 durationSeconds
    if chunks.isEmpty then none else some chunks.flatten
  else none

lemma popAttempts_le (outs : Nat → Option (List ℚ)) :
    ∀ (n j : Nat), popAttempts outs j n ≤ n := by
  intro n
  induction n with
  | zero => intro j; simp [popAttempts]
  | succ n ih =>
    intro j
    cases houts : outs j with
    | none => simp [popAttempts, houts]
    | some c =>
      simp only [popAttempts, houts]
      have := ih (j + 1)
      omega

lemma collectChunks_all_some (outs : Nat → Option (List ℚ)) (cs : Nat → List ℚ) :
    ∀ (n j : Nat), (∀ i, i < n → outs (j + i) = some (cs (j + i))) →
      collectChunks outs j n = (List.range' j n).map cs := by
  intro n
  induction n with
  | zero => intro j _; simp [collectChunks]
  | succ n ih =>
    intro j h
    have h0 : outs j = some (cs j) := by simpa using h 0 n.succ_pos
    simp only [collectChunks, h0]
    rw [List.range'_succ, List.map_cons]
    congr 1
    refine ih (j + 1) ?_
    intro i hi
    have hh := h (i + 1) (by omega)
    have e : j + (i + 1) = j + 1 + i := by omega
    rwa [e] at hh

lemma collectChunks_stop (outs : Nat → Option (List ℚ)) (cs : Nat → List ℚ) :
    ∀ (k n j : Nat), k < n → (∀ i, i < k → outs (j + i) = some (cs (j + i))) →
      outs (j + k) = none →
      collectChunks outs j n = (List.range' j k).map cs := by
  intro k
  induction k with
  | zero =>
    intro n j hk _ hnone
    obtain ⟨n', rfl⟩ : ∃ n', n = n' + 1 := ⟨n - 1, by omega⟩
    simp only [Nat.add_zero] at hnone
    simp [collectChunks, hnone]
  | succ k ih =>
    intro n j hk h hnone
    obtain ⟨n', rfl⟩ : ∃ n', n = n' + 1 := ⟨n - 1, by omega⟩
    have h0 : outs j = some (cs j) := by simpa using h 0 k.succ_pos
    simp only [collectChunks, h0]
    rw [List.range'_succ, List.map_cons]
    congr 1
    refine ih n' (j + 1) (by omega) ?_ ?_
    · intro i hi
      have hh := h (i + 1) (by omega)
      have e : j + (i + 1) = j + 1 + i := by omega
      rwa [e] at hh
    · have e : j + (k + 1) = j + 1 + k := by omega
      rwa [e] at hnone

/-- **C3 (amended: for durations `d ≥ 1`).** `read_chunk` postcondition:
at most `d` pops are attempted, each with timeout `d + 1`; a dead
capture yields `none` with no pop consulted; a timeout on the first pop
yields `none`; a timeout after `k ≥ 1` collected chunks yields the
concatenation of exactly those `k` chunks; `d` successful pops yield the
concatenation of all `d` chunks in order. -/
theorem read_chunk_spec (d : Nat) (hd : 1 ≤ d) (get : Nat → Nat → Option (List ℚ)) :
    read_chunk false d get = none ∧
    popAttempts (fun i => get i (d + 1)) 0 d ≤ d ∧
    (get 0 (d + 1) = none → read_chunk true d get = none) ∧
    (∀ cs : Nat → List ℚ,
      ((∀ i, i < d → get i (d + 1) = some (cs i)) →
        read_chunk true d get = some ((List.range d).map cs).flatten) ∧
      (∀ k, 1 ≤ k → k < d →
        (∀ i, i < k → get i (d + 1) = some (cs i)) → get k (d + 1) = none →
        read_chunk true d get = some ((List.range k).map cs).flatten)) := by
  refine ⟨rfl, popAttempts_le _ d 0, ?_, ?_⟩
  · intro h0
    obtain ⟨d', rfl⟩ : ∃ d', d = d' + 1 := ⟨d - 1, by omega⟩
    simp [read_chunk, collectChunks, h0]
  · intro cs
    constructor
    · intro h
      have hc : collectChunks (fun i => get i (d + 1)) 0 d =
          (List.range' 0 d).map cs := by
        refine collectChunks_all_some _ cs d 0 ?_
        intro i hi
        simpa using h i hi
      rw [← List.range_eq_range'] at hc
      have hne : ¬ ((List.range d).map cs).isEmpty = true := by
        simp [List.isEmpty_iff_length_eq_zero]
        omega
      simp [read_chunk, hc, hne]
    · intro k hk1 hkd h hnone
      have hc : collectChunks (fun i => get i (d + 1)) 0 d =
          (List.range' 0 k).map cs := by
        refine collectChunks_stop _ cs k d 0 hkd ?_ ?_
        · intro i hi
          simpa using h i hi
        · simpa using hnone
      rw [← List.range_eq_range'] at hc
      have hne : ¬ ((List.range k).map cs).isEmpty = true := by
        simp [List.isEmpty_iff_length_eq_zero]
        omega
      simp [read_chunk, hc, hne]

/-- Concrete instance of `read_chunk_spec` at `d = 2` with both pops
succeeding. -/
theorem read_chunk_spec_witness :
    read_chunk true 2 (fun i _ => some [(i : ℚ)]) = some [0, 1] := by
  have h := ((read_chunk_spec 2 (by decide) (fun i _ => some [(i : ℚ)])).2.2.2
    (fun i => [(i : ℚ)])).1 (fun i _ => rfl)
  simpa [List.range_succ] using h

/-- **C3 counterexample.** At duration `d = 0` (all zero pops trivially
succeed) the claim predicts the empty concatenation `some []`, but the
`if not chunks: return None` guard makes `read_chunk` return `none`. -/
theorem read_chunk_zero_duration_counterexample :
    read_chunk true 0 (fun _ _ => some [(1 : ℚ)]) = none ∧
    read_chunk true 0 (fun _ _ => some [(1 : ℚ)]) ≠
      some (((List.range 0).map (fun _ => [(1 : ℚ)])).flatten) := by
  constructor
  · rfl
  · simp [read_chunk, collectChunks]

/-! ### Error threshold of `_capture_loop` (lines 220-254)

One capture session starts with `self._errors = 0`; each loop iteration
either reads data, hits end-of-stream (`break`), or raises (increment
`self._errors`, `break` once `self._errors > 10`). -/

inductive CapEvent : Type
  | dataOk : CapEvent
  | noData : CapEvent
  | readError : CapEvent

/-- Runs the capture loop's control flow over a list of iteration
outcomes; returns the final error counter and whether the loop is still
running after consuming them (`false` means it exited via `break`). -/
def captureErrors : List CapEvent → Nat → Nat × Bool
  | [], e => (e, true)
  | .dataOk :: rest, e => captureErrors rest e
  | .noData :: _, e => (e, false)
  | .readError :: rest, e =>
    if e + 1 > 10 then (e + 1, false) else captureErrors rest (e + 1)

lemma captureErrors_replicate (n : Nat) : ∀ e : Nat, e ≤ 10 →
    captureErrors (List.replicate n .readError) e =
      (min (e + n) 11, decide (e + n ≤ 10)) := by
  induction n with
  | zero =>
    intro e he
    simp only [List.replicate_zero, captureErrors]
    have h1 : min (e + 0) 11 = e := by omega
    have h2 : decide (e + 0 ≤ 10) = true := by simpa using he
    rw [h1, h2]
  | succ n ih =>
    intro e he
    rw [List.replicate_succ]
    simp only [captureErrors]
    by_cases h10 : e + 1 > 10
    · rw [if_pos h10]
      have h1 : min (e + (n + 1)) 11 = e + 1 := by omega
      have h2 : decide (e + (n + 1) ≤ 10) = false := by
        simp
        omega
      rw [h1, h2]
    · rw [if_neg h10, ih (e + 1) (by omega)]
      have h1 : e + 1 + n = e + (n + 1) := by omega
      rw [h1]

lemma captureErrors_running_le (evs : List CapEvent) : ∀ e : Nat, e ≤ 10 →
    (captureErrors evs e).2 = true → (captureErrors evs e).1 ≤ 10 := by
  induction evs with
  | nil =>
    intro e he _
    simpa [captureErrors] using he
  | cons ev rest ih =>
    intro e he h
    cases ev with
    | dataOk =>
      simp only [captureErrors] at h ⊢
      exact ih e he h
    | noData =>
      simp only [captureErrors] at h
      exact absurd h (by simp)
    | readError =>
      simp only [captureErrors] at h ⊢
      by_cases h10 : e + 1 > 10
      · rw [if_pos h10] at h
        exact absurd h (by simp)
      · rw [if_neg h10] at h ⊢
        exact ih (e + 1) (by omega) h

/-- **C4.** Error threshold: starting from a fresh session
(`self._errors = 0`), `n` read errors leave the counter at `min n 11`
and the loop keeps running exactly when `n ≤ 10` (so 10 errors leave it
running and 11 terminate it); in general, as long as the loop is still
running the counter has never exceeded 10. -/
theorem error_threshold :
    (∀ n : Nat, captureErrors (List.replicate n .readError) 0 =
      (min n 11, decide (n ≤ 10))) ∧
    (∀ (evs : List CapEvent) (e : Nat), e ≤ 10 →
      (captureErrors evs e).2 = true → (captureErrors evs e).1 ≤ 10) := by
  constructor
  · intro n
    have h := captureErrors_replicate n 0 (by omega)
    simpa using h
  · exact captureErrors_running_le

/-- Concrete instance of `error_threshold`: 11 errors stop the loop, 10
do not. -/
theorem error_threshold_witness :
    captureErrors (List.replicate 11 .readError) 0 = (11, false) ∧
    captureErrors (List.replicate 10 .readError) 0 = (10, true) := by
  constructor
  · have h := error_threshold.1 11
    simpa using h
  · have h := error_threshold.1 10
    simpa using h

/-! ### The orchestrator loop (`RadioListener._process_loop`, main.py lines 123-175)

`while self._running and self.audio_capture.is_alive():` with a
`try/except Exception` around the whole body.  Each iteration is
abstracted by the pair of condition flags read at the top of the loop
plus one of four body outcomes: `read_chunk` returned `None`
(`continue`); an exception before `save_block` was invoked; an exception
during or after the `save_block` invocation but before
`self._block_count += 1`; or a complete iteration. -/

inductive BlockOutcome : Type
  | readNone : BlockOutcome
  | raiseBeforeSave : BlockOutcome
  | raiseAfterSaveCall : BlockOutcome
  | ok : BlockOutcome
deriving DecidableEq

structure OrchState where
  blockCount : Nat
  saves : List Nat
  displayedErrors : Nat
deriving DecidableEq

/-- One loop body: `saves` logs the `block_number` argument of each
`save_block` invocation; a caught exception is reported via
`self.display.show_error` (counted by `displayedErrors`); only a
complete iteration reaches `self._block_count += 1`. -/
def stepBlock (s : OrchState) : BlockOutcome → OrchState
  | .readNone => s
  | .raiseBeforeSave => { s with displayedErrors := s.displayedErrors + 1 }
  | .raiseAfterSaveCall =>
    { s with saves := s.saves ++ [s.blockCount],
             displayedErrors := s.displayedErrors + 1 }
  | .ok =>
    { s with saves := s.saves ++ [s.blockCount],
             blockCount := s.blockCount + 1 }

/-- `_process_loop` over a finite schedule of iterations: each entry is
`(self._running, is_alive(), outcome)`.  Returns the final state and
`true` iff the loop exited because the `while` condition was false
(`false` means the schedule ran out with the loop still going). -/
def processLoop : List (Bool × Bool × BlockOutcome) → OrchState → OrchState × Bool
  | [], s => (s, false)
  | (r, a, o) :: rest, s =>
    if r && a then processLoop rest (stepBlock s o) else (s, true)

def initOrch : OrchState := ⟨0, [], 0⟩

/-- **C5.** Per-block fault isolation: the loop exits via its `while`
condition exactly when some scheduled check has the running flag cleared
or `is_alive()` false; when every check passes, every iteration is
processed — exceptions included, each one reported — and the loop never
exits because a body raised. -/
theorem process_loop_fault_isolation
    (env : List (Bool × Bool × BlockOutcome)) (s : OrchState) :
    ((processLoop env s).2 = true ↔ ∃ e ∈ env, e.1 = false ∨ e.2.1 = false) ∧
    ((∀ e ∈ env, e.1 = true ∧ e.2.1 = true) →
      processLoop env s = (env.foldl (fun st e => stepBlock st e.2.2) s, false)) ∧
    (∀ (o : BlockOutcome) (rest : List (Bool × Bool × BlockOutcome)),
      processLoop ((true, true, o) :: rest) s = processLoop rest (stepBlock s o)) ∧
    (stepBlock s .raiseBeforeSave).displayedErrors = s.displayedErrors + 1 ∧
    (stepBlock s .raiseAfterSaveCall).displayedErrors = s.displayedErrors + 1 := by
  refine ⟨?_, ?_, fun o rest => rfl, rfl, rfl⟩
  · induction env generalizing s with
    | nil => simp [processLoop]
    | cons hd rest ih =>
      obtain ⟨r, a, o⟩ := hd
      by_cases hra : r && a
      · have hr : r = true ∧ a = true := by
          constructor <;> cases r <;> cases a <;> simp_all
        simp only [processLoop, if_pos hra]
        rw [ih (stepBlock s o)]
        constructor
        · intro ⟨e, he, hor⟩
          exact ⟨e, List.mem_cons_of_mem _ he, hor⟩
        · intro ⟨e, he, hor⟩
          rcases List.mem_cons.mp he with he | he
          · exfalso
            rw [he] at hor
            rcases hor with h' | h'
            · rw [hr.1] at h'
              cases h'
            · rw [hr.2] at h'
              cases h'
          · exact ⟨e, he, hor⟩
      · simp only [processLoop, if_neg hra]
        have : r = false ∨ a = false := by
          cases r <;> cases a <;> simp_all
        constructor
        · intro _
          exact ⟨(r, a, o), List.mem_cons_self _ _, this⟩
        · intro _
          trivial
  · induction env generalizing s with
    | nil => intro _; rfl
    | cons hd rest ih =>
      intro h
      obtain ⟨r, a, o⟩ := hd
      have hr := h (r, a, o) (List.mem_cons_self _ _)
      simp only at hr
      rw [hr.1, hr.2]
      simp only [processLoop, List.foldl_cons, Bool.and_self, if_pos]
      exact ih (stepBlock s o) (fun e he => h e (List.mem_cons_of_mem _ he))

/-- Concrete instance of `process_loop_fault_isolation`: a schedule
whose second block raises still processes all three iterations and
reports one error. -/
theorem process_loop_fault_isolation_witness :
    processLoop [(true, true, .ok), (true, true, .raiseBeforeSave), (true, true, .ok)]
        initOrch =
      (⟨2, [0, 1], 1⟩, false) ∧
    (processLoop [(true, true, .ok), (false, true, .ok)] initOrch).2 = true := by
  constructor
  · have h := (process_loop_fault_isolation
      [(true, true, .ok), (true, true, .raiseBeforeSave), (true, true, .ok)]
      initOrch).2.1 (by decide)
    rw [h]
    rfl
  · exact ((process_loop_fault_isolation [(true, true, .ok), (false, true, .ok)]
      initOrch).1).mpr ⟨(false, true, .ok), by decide, Or.inl rfl⟩

/-- **C8 counterexample.** If an iteration's exception is raised during
or after the `save_block` call (for instance `display.update_status`
raising after a successful save), `self._block_count` is not
incremented, and the next completed iteration invokes `save_block` with
the same block number again: the orchestrator does retry a number. -/
theorem block_number_reuse_counterexample :
    (processLoop [(true, true, .raiseAfterSaveCall), (true, true, .ok)]
      initOrch).1.saves = [0, 0] ∧
    ¬ (processLoop [(true, true, .raiseAfterSaveCall), (true, true, .ok)]
      initOrch).1.saves.Nodup := by
  constructor
  · rfl
  · decide

lemma processLoop_saves_inv
    (env : List (Bool × Bool × BlockOutcome))
    (henv : ∀ e ∈ env, e.2.2 ≠ .raiseAfterSaveCall) :
    ∀ s : OrchState,
      List.Pairwise (· < ·) s.saves → (∀ x ∈ s.saves, x < s.blockCount) →
      List.Pairwise (· < ·) (processLoop env s).1.saves ∧
        (∀ x ∈ (processLoop env s).1.saves, x < (processLoop env s).1.blockCount) := by
  induction env with
  | nil =>
    intro s h1 h2
    exact ⟨h1, h2⟩
  | cons hd rest ih =>
    intro s h1 h2
    obtain ⟨r, a, o⟩ := hd
    by_cases hra : r && a
    · simp only [processLoop, if_pos hra]
      have hrest : ∀ e ∈ rest, e.2.2 ≠ .raiseAfterSaveCall :=
        fun e he => henv e (List.mem_cons_of_mem _ he)
      cases o with
      | readNone => exact ih hrest _ h1 h2
      | raiseBeforeSave => exact ih hrest _ h1 h2
      | raiseAfterSaveCall =>
        exact absurd rfl (henv (r, a, .raiseAfterSaveCall) (List.mem_cons_self _ _))
      | ok =>
        refine ih hrest (stepBlock s .ok) ?_ ?_
        · refine List.pairwise_append.mpr ⟨h1, List.pairwise_singleton _ _, ?_⟩
          intro x hx y hy
          rw [List.mem_singleton] at hy
          rw [hy]
          exact h2 x hx
        · intro x hx
          rcases List.mem_append.mp hx with h' | h'
          · exact Nat.lt_succ_of_lt (h2 x h')
          · rw [List.mem_singleton] at h'
            rw [h']
            exact Nat.lt_succ_self s.blockCount
    · simp only [processLoop, if_neg hra]
      exact ⟨h1, h2⟩

/-- **C8 (amended).** Within one session, `save_block` is never invoked
twice with the same block number *provided* no iteration raises during
or after a `save_block` invocation (before the `self._block_count += 1`
line); under that proviso the invoked block numbers are strictly
increasing, hence pairwise distinct.  (The counterexample shows the
unamended claim fails when `save_block` or the display update raises.) -/
theorem block_numbers_never_reused
    (env : List (Bool × Bool × BlockOutcome))
    (henv : ∀ e ∈ env, e.2.2 ≠ .raiseAfterSaveCall) :
    List.Pairwise (· < ·) (processLoop env initOrch).1.saves ∧
    (processLoop env initOrch).1.saves.Nodup := by
  have h := processLoop_saves_inv env henv initOrch (by simp [initOrch]) (by simp [initOrch])
  exact ⟨h.1, h.1.imp Nat.ne_of_lt⟩

/-- Concrete instance of `block_numbers_never_reused`: two clean
iterations save block numbers 0 and 1. -/
theorem block_numbers_never_reused_witness :
    (processLoop [(true, true, .ok), (true, true, .ok)] initOrch).1.saves.Nodup ∧
    (processLoop [(true, true, .ok), (true, true, .ok)] initOrch).1.saves = [0, 1] := by
  refine ⟨(block_numbers_never_reused
    [(true, true, .ok), (true, true, .ok)] (by decide)).2, rfl⟩

/-! ### Sample normalization (`_capture_loop`, lines 231-235)

`np.frombuffer(raw_data, dtype=np.int16)` decodes consecutive
little-endian byte pairs as signed 16-bit integers;
`.astype(np.float32) / 32768.0` rescales.  Every value `s / 32768` with
`s` a 16-bit integer is exactly representable in IEEE binary32 (the
divisor is a power of two and `|s| < 2^24`), so the arithmetic is
embedded exactly in `ℚ`. -/

/-- Little-endian signed 16-bit decode of one byte pair. -/
def int16OfBytes (lo hi : Nat) : Int :=
  let u := lo + 256 * hi
  if u < 32768 then (u : Int) else (u : Int) - 65536

/-- `astype(np.float32) / 32768.0` on one sample. -/
def normalizeSample (s : Int) : ℚ := (s : ℚ) / 32768

/-- The whole `frombuffer` + rescale pipeline on a list of byte pairs. -/
def bytesToSamples (bs : List (Nat × Nat)) : List ℚ :=
  bs.map (fun p => normalizeSample (int16OfBytes p.1 p.2))

/-- **C6.** Sample normalization: each decoded 16-bit sample `s` maps to
`s / 32768`, so every output of the byte pipeline lies in `[-1, 1]`;
`-32768` maps to exactly `-1` and `32767` maps to `32767/32768 ≠ 1`. -/
theorem sample_normalization :
    (∀ lo hi : Nat, lo < 256 → hi < 256 →
      -32768 ≤ int16OfBytes lo hi ∧ int16OfBytes lo hi ≤ 32767) ∧
    (∀ s : Int, -32768 ≤ s → s ≤ 32767 →
      -1 ≤ normalizeSample s ∧ normalizeSample s ≤ 1) ∧
    (∀ bs : List (Nat × Nat), (∀ p ∈ bs, p.1 < 256 ∧ p.2 < 256) →
      ∀ q ∈ bytesToSamples bs, -1 ≤ q ∧ q ≤ 1) ∧
    normalizeSample (-32768) = -1 ∧
    normalizeSample 32767 = 32767 / 32768 ∧
    normalizeSample 32767 ≠ 1 := by
  have hbytes : ∀ lo hi : Nat, lo < 256 → hi < 256 →
      -32768 ≤ int16OfBytes lo hi ∧ int16OfBytes lo hi ≤ 32767 := by
    intro lo hi hlo hhi
    unfold int16OfBytes
    by_cases hu : lo + 256 * hi < 32768
    · rw [if_pos hu]
      omega
    · rw [if_neg hu]
      omega
  have hrange : ∀ s : Int, -32768 ≤ s → s ≤ 32767 →
      -1 ≤ normalizeSample s ∧ normalizeSample s ≤ 1 := by
    intro s h1 h2
    unfold normalizeSample
    have hs1 : (-32768 : ℚ) ≤ (s : ℚ) := by exact_mod_cast h1
    have hs2 : (s : ℚ) ≤ 32767 := by exact_mod_cast h2
    constructor
    · rw [le_div_iff₀ (by norm_num : (0 : ℚ) < 32768)]
      linarith
    · rw [div_le_one (by norm_num)]
      linarith
  refine ⟨hbytes, hrange, ?_, ?_, rfl, ?_⟩
  · intro bs hbs q hq
    unfold bytesToSamples at hq
    obtain ⟨p, hp, rfl⟩ := List.mem_map.mp hq
    obtain ⟨hlo, hhi⟩ := hbs p hp
    obtain ⟨hl, hr⟩ := hbytes p.1 p.2 hlo hhi
    exact hrange _ hl hr
  · unfold normalizeSample
    norm_num
  · unfold normalizeSample
    norm_num

/-- Concrete instance of `sample_normalization`: the byte pair
`(0x00, 0x80)` decodes to `-32768` and normalizes to `-1`; `(0xFF,
0x7F)` decodes to `32767`. -/
theorem sample_normalization_witness :
    (-32768 ≤ int16OfBytes 0 128 ∧ int16OfBytes 0 128 ≤ 32767) ∧
    (-1 ≤ normalizeSample 100 ∧ normalizeSample 100 ≤ 1) ∧
    int16OfBytes 0 128 = -32768 ∧ int16OfBytes 255 127 = 32767 := by
  refine ⟨sample_normalization.1 0 128 (by decide) (by decide),
    sample_normalization.2.1 100 (by decide) (by decide), by decide, by decide⟩

/-! ### Idempotent stop (`AudioCapture.stop_capture`, lines 293-318)

`stop_capture` sets `self._stop_event`, joins both threads with bounded
timeouts (`Thread.join(timeout=5)` on a finished or running thread
returns normally and mutates nothing), and — only when `self._process`
is non-`None` — terminates the process (escalating from `terminate` to
`kill` when `wait(timeout=5)` raises `TimeoutExpired`), with the
`finally` block clearing the handle in either case. -/

structure CaptureState where
  stopEvent : Bool
  captureThread : Option Bool
  stderrThread : Option Bool
  process : Option Nat
deriving DecidableEq

/-- `stop_capture`, with `waitTimesOut` choosing whether `wait(timeout=5)`
raises `TimeoutExpired` (forcing the `kill` path).  Also returns whether
the process-termination branch was taken. -/
def stop_capture (_waitTimesOut : Bool) (s : CaptureState) : CaptureState × Bool :=
  let s1 : CaptureState := { s with stopEvent := true }
  match s1.process with
  | none => (s1, false)
  | some _ =>
    ({ s1 with process := none }, true)

/-- **C9.** Idempotent stop: after `stop_capture` the process handle is
`none` (whether or not the graceful wait timed out); a second call
returns the exact same state, raises nothing (it is a total function),
and skips the process-termination branch entirely because the handle is
already cleared. -/
theorem stop_capture_idempotent (w w' : Bool) (s : CaptureState) :
    (stop_capture w s).1.process = none ∧
    stop_capture w' (stop_capture w s).1 = ((stop_capture w s).1, false) := by
  obtain ⟨ev, ct, st, pr⟩ := s
  cases pr with
  | none => exact ⟨rfl, rfl⟩
  | some p => exact ⟨rfl, rfl⟩

/-! ### `bytes_read` accounting (`_capture_loop`, lines 237-247)

`self._bytes_read += len(raw_data)` sits on the success path of the
first `put`; the `queue.Full` handler admits the chunk after evicting
the oldest but performs no increment.  `CapBuf` carries the buffer
(entries are the raw byte lengths of resident chunks) and the counter. -/

structure CapBuf where
  buf : List Nat
  bytesRead : Nat
deriving DecidableEq

/-- One successful read iteration of `_capture_loop`: push the chunk of
raw byte length `c` and update `self._bytes_read` as the code does
(the empty-while-full branch is `get_nowait` raising `queue.Empty`,
which drops the new chunk and changes nothing). -/
def capturePut (cap : Nat) (s : CapBuf) (c : Nat) : CapBuf :=
  if cap = 0 ∨ s.buf.length < cap then ⟨s.buf ++ [c], s.bytesRead + c⟩
  else if s.buf.isEmpty then s
  else ⟨s.buf.tail ++ [c], s.bytesRead⟩

lemma capturePut_bytes_le (cap : Nat) (s : CapBuf) (c : Nat) :
    s.bytesRead ≤ (capturePut cap s c).bytesRead := by
  unfold capturePut
  by_cases hr : cap = 0 ∨ s.buf.length < cap
  · rw [if_pos hr]
    exact Nat.le_add_right _ _
  · rw [if_neg hr]
    by_cases he : s.buf.isEmpty = true
    · rw [if_pos he]
    · rw [if_neg he]

lemma foldl_capturePut_bytes_le (cap : Nat) (cs : List Nat) :
    ∀ s : CapBuf, s.bytesRead ≤ (cs.foldl (capturePut cap) s).bytesRead := by
  induction cs with
  | nil => intro s; exact le_refl _
  | cons c0 cs ih =>
    intro s
    exact le_trans (capturePut_bytes_le cap s c0) (ih (capturePut cap s c0))

/-- **C10.** `bytes_read` is incremented by the chunk's byte length only
on the eviction-free admission path; on the full-buffer path the chunk
is still admitted (oldest evicted) but `bytes_read` is unchanged; the
counter never decreases across any run. -/
theorem bytes_read_undercount (cap : Nat) (s : CapBuf) (c : Nat) :
    ((cap = 0 ∨ s.buf.length < cap) →
      capturePut cap s c = ⟨s.buf ++ [c], s.bytesRead + c⟩) ∧
    (∀ b0 t, ¬ (cap = 0 ∨ s.buf.length < cap) → s.buf = b0 :: t →
      capturePut cap s c = ⟨t ++ [c], s.bytesRead⟩) ∧
    s.bytesRead ≤ (capturePut cap s c).bytesRead ∧
    (∀ cs : List Nat, s.bytesRead ≤ (cs.foldl (capturePut cap) s).bytesRead) := by
  refine ⟨?_, ?_, capturePut_bytes_le cap s c, fun cs => foldl_capturePut_bytes_le cap cs s⟩
  · intro hr
    unfold capturePut
    rw [if_pos hr]
  · intro b0 t hr hbuf
    unfold capturePut
    rw [if_neg hr, hbuf]
    rfl

/-- Concrete instance of `bytes_read_undercount` at capacity 2: the
third chunk is admitted by eviction and leaves the counter unchanged. -/
theorem bytes_read_undercount_witness :
    capturePut 2 ⟨[100, 200], 300⟩ 400 = ⟨[200, 400], 300⟩ ∧
    capturePut 2 ⟨[100], 100⟩ 200 = ⟨[100, 200], 300⟩ := by
  constructor
  · have h := (bytes_read_undercount 2 ⟨[100, 200], 300⟩ 400).2.1 100 [200]
      (by decide) rfl
    exact h
  · have h := (bytes_read_undercount 2 ⟨[100], 100⟩ 200).1 (by decide)
    exact h

/-! ### Stream-kind classification (`AudioCapture._detect_stream_type`, lines 55-76)

`_detect_stream_type(url)` evaluates `urlparse(url.lower())` and
classifies on `parsed.scheme` and `parsed.path.lower()`.  CPython's
`urlsplit`/`urlparse` is modelled on `List Char` for ASCII URLs
(`str.lower` agrees with `Char.toLower` there): removal of the unsafe
bytes tab/CR/LF; scheme split at the first `:` when the first character
is alphabetic and the rest of the scheme is alphanumeric or `+`/`-`/`.`;
`//`-netloc split up to `/`, `?` or `#`; `urlsplit`'s bracket
validation of the netloc (a `[` without `]` or vice versa raises
`ValueError("Invalid IPv6 URL")` in every CPython version, and
`_detect_stream_type` propagates that instead of classifying — the
parse is therefore fallible here); fragment split at the first `#`;
query split at the first `?`; and `urlparse`'s parameter split at the
first `;` of the last path segment for schemes in `uses_params`.
Netlocs containing both `[` and `]` additionally go through
`_check_bracketed_host` on newer CPython (the bracketed host must be a
valid IPv6/IPvFuture address), a version-dependent check not embedded:
such URLs are mapped to the distinct marker `UrlError.bracketedHost`
and no theorem below asserts anything about them. -/

/-- CPython `scheme_chars`. -/
def schemeChar (c : Char) : Bool :=
  c.isAlphanum || c == '+' || c == '-' || c == '.'

/-- Split at the first occurrence of `d`: `some (before, after)`, or
`none` when `d` does not occur. -/
def splitFirst (d : Char) : List Char → Option (List Char × List Char)
  | [] => none
  | c :: cs =>
    if c = d then some ([], cs)
    else
      match splitFirst d cs with
      | none => none
      | some (a, b) => some (c :: a, b)

/-- `urlsplit`'s scheme recognition: `(scheme, remainder)`. -/
def splitScheme (url : List Char) : List Char × List Char :=
  match splitFirst ':' url with
  | some (c0 :: middle, after) =>
    if c0.isAlpha && middle.all schemeChar then (c0 :: middle, after)
    else ([], url)
  | _ => ([], url)

/-- `_splitnetloc`: after a leading `//`, the netloc runs up to the next
`/`, `?` or `#`.  (As in CPython, the bracket validation of the netloc
is performed by the caller, `parsedSchemePath` below.) -/
def netSplit (url : List Char) : List Char × List Char :=
  match url with
  | '/' :: '/' :: rest =>
    (rest.takeWhile (fun c => !(c == '/' || c == '?' || c == '#')),
     rest.dropWhile (fun c => !(c == '/' || c == '?' || c == '#')))
  | _ => ([], url)

/-- Keep everything before the first occurrence of `d` (`str.split(d, 1)[0]`),
the whole list when `d` is absent. -/
def cutAtFirst (d : Char) (url : List Char) : List Char :=
  match splitFirst d url with
  | none => url
  | some (a, _) => a

/-- Split at the last `/`: `some (before, after)`, `none` when absent. -/
def splitLastSlash : List Char → Option (List Char × List Char)
  | [] => none
  | c :: cs =>
    match splitLastSlash cs with
    | some (a, b) => some (c :: a, b)
    | none => if c = '/' then some ([], cs) else none

/-- CPython `urlparse.uses_params` (schemes whose last path segment may
carry `;params`). -/
def usesParams : List (List Char) :=
  ["".data, "ftp".data, "hdl".data, "prospero".data, "http".data,
   "imap".data, "https".data, "shttp".data, "rtsp".data, "rtspu".data,
   "sip".data, "sips".data, "mms".data, "sftp".data, "tel".data]

/-- `_splitparams` applied to a path: cut at the first `;` of the last
`/`-segment (of the whole path when it has no `/`). -/
def stripParams (path : List Char) : List Char :=
  if path.contains '/' then
    match splitLastSlash path with
    | some (a, b) =>
      match splitFirst ';' b with
      | none => path
      | some (b', _) => a ++ '/' :: b'
    | none => path
  else
    match splitFirst ';' path with
    | none => path
    | some (p, _) => p

/-- The removal of `\t`, `\r`, `\n` at the top of `urlsplit`. -/
def cleanUrl (url : List Char) : List Char :=
  url.filter (fun c => !(c == '\t' || c == '\r' || c == '\n'))

/-- `parsed.scheme` of an already-lowercased URL. -/
def urlScheme (url : List Char) : List Char := (splitScheme (cleanUrl url)).1

/-- The netloc of an already-lowercased URL (empty without `//`). -/
def urlNetloc (url : List Char) : List Char :=
  (netSplit (splitScheme (cleanUrl url)).2).1

/-- What follows the netloc, before the fragment/query splits. -/
def urlAfterNetloc (url : List Char) : List Char :=
  (netSplit (splitScheme (cleanUrl url)).2).2

/-- `parsed.path` of an already-lowercased URL: fragment split, query
split, and `urlparse`'s parameter split. -/
def urlPath (url : List Char) : List Char :=
  let path0 := cutAtFirst '?' (cutAtFirst '#' (urlAfterNetloc url))
  if urlScheme url ∈ usesParams ∧ path0.contains ';' then stripParams path0
  else path0

/-- Failure modes of `urlsplit` on the netloc: `invalidIpv6` is the
`ValueError("Invalid IPv6 URL")` raised (in every CPython version) for
a mismatched square bracket; `bracketedHost` marks netlocs containing
both `[` and `]`, whose acceptance depends on `_check_bracketed_host`
(version-dependent host validation not embedded here). -/
inductive UrlError : Type
  | invalidIpv6 : UrlError
  | bracketedHost : UrlError
deriving DecidableEq

/-- The `(parsed.scheme, parsed.path)` pair of `urlparse` on an
already-lowercased URL, or the `urlsplit` netloc failure. -/
def parsedSchemePath (url : List Char) : Except UrlError (List Char × List Char) :=
  if ((urlNetloc url).contains '[' && !((urlNetloc url).contains ']')) ||
      ((urlNetloc url).contains ']' && !((urlNetloc url).contains '[')) then
    .error .invalidIpv6
  else if (urlNetloc url).contains '[' && (urlNetloc url).contains ']' then
    .error .bracketedHost
  else .ok (urlScheme url, urlPath url)

def endsWithList (suff cs : List Char) : Bool := suff.isSuffixOf cs

/-- `AudioCapture._detect_stream_type`: classify on the parsed scheme
and path; a `urlparse` failure propagates (the Python function raises
instead of returning a stream type). -/
def detect_stream_type (url : String) : Except UrlError String :=
  match parsedSchemePath (url.data.map Char.toLower) with
  | .error e => .error e
  | .ok sp =>
    if sp.1 ∈ ["rtsp".data, "rtsps".data] then .ok "rtsp"
    else if endsWithList ".m3u8".data sp.2 || endsWithList ".m3u".data sp.2 then
      .ok "hls"
    else if sp.1 ∈ ["http".data, "https".data] then .ok "http"
    else .ok "unknown"

/-- The spec's classification table, written from its words: scheme
`rtsp`/`rtsps` → RTSP; otherwise path ending in `.m3u8`/`.m3u` → HLS;
otherwise scheme `http`/`https` → HTTP; else Unknown. -/
def classifySpec (scheme path : List Char) : String :=
  if scheme = "rtsp".data ∨ scheme = "rtsps".data then "rtsp"
  else if endsWithList ".m3u8".data path || endsWithList ".m3u".data path then "hls"
  else if scheme = "http".data ∨ scheme = "https".data then "http"
  else "unknown"

/-- The parsed netloc of a URL as `_detect_stream_type` sees it. -/
def netlocOfUrl (url : String) : List Char :=
  urlNetloc (url.data.map Char.toLower)

/-- **C7 counterexample.** The claim says every URL classifies to one of
the four kinds, but on `http://[a/x.m3u8` (netloc `[a`: a `[` with no
`]`) `urlparse` raises `ValueError("Invalid IPv6 URL")` and
`_detect_stream_type` propagates it — no stream kind is produced. -/
theorem stream_kind_invalid_ipv6_counterexample :
    detect_stream_type "http://[a/x.m3u8" = .error .invalidIpv6 ∧
    ∀ kind : String, detect_stream_type "http://[a/x.m3u8" ≠ .ok kind := by
  refine ⟨rfl, ?_⟩
  intro kind h
  have h2 : detect_stream_type "http://[a/x.m3u8" = .error .invalidIpv6 := rfl
  rw [h2] at h
  exact Except.noConfusion h

/-- **C7 (amended: scoped to URLs `urlparse` accepts).** Stream-kind
classification: `_detect_stream_type` is a pure function of the URL
that, whenever `urlparse` accepts the URL, agrees with the spec's case
table over the parsed scheme and path; every URL whose netloc has no
square bracket is accepted; a netloc with a `[` and no `]` makes
`urlparse` raise and the raise propagates; and the four sample URLs
classify as RTSP, HLS, HTTP and Unknown respectively. -/
theorem stream_kind_classification :
    (∀ (url : String) (scheme path : List Char),
      parsedSchemePath (url.data.map Char.toLower) = .ok (scheme, path) →
      detect_stream_type url = .ok (classifySpec scheme path)) ∧
    (∀ url : String,
      (netlocOfUrl url).contains '[' = false →
      (netlocOfUrl url).contains ']' = false →
      ∃ scheme path,
        parsedSchemePath (url.data.map Char.toLower) = .ok (scheme, path)) ∧
    (∀ url : String,
      (netlocOfUrl url).contains '[' = true →
      (netlocOfUrl url).contains ']' = false →
      detect_stream_type url = .error .invalidIpv6) ∧
    detect_stream_type "rtsp://h/s" = .ok "rtsp" ∧
    detect_stream_type "https://h/s.m3u8" = .ok "hls" ∧
    detect_stream_type "https://h/s" = .ok "http" ∧
    detect_stream_type "ftp://h/s" = .ok "unknown" := by
  refine ⟨?_, ?_, ?_, rfl, rfl, rfl, rfl⟩
  · intro url scheme path h
    unfold detect_stream_type
    rw [h]
    unfold classifySpec
    simp only [List.mem_cons, List.mem_singleton, List.not_mem_nil, or_false]
    split_ifs <;> rfl
  · intro url h1 h2
    unfold netlocOfUrl at h1 h2
    have h1' : '[' ∉ urlNetloc (url.data.map Char.toLower) := by simpa using h1
    have h2' : ']' ∉ urlNetloc (url.data.map Char.toLower) := by simpa using h2
    refine ⟨urlScheme (url.data.map Char.toLower), urlPath (url.data.map Char.toLower), ?_⟩
    simp [parsedSchemePath, h1', h2']
  · intro url h1 h2
    unfold netlocOfUrl at h1 h2
    have h1' : '[' ∈ urlNetloc (url.data.map Char.toLower) := by simpa using h1
    have h2' : ']' ∉ urlNetloc (url.data.map Char.toLower) := by simpa using h2
    have hp : parsedSchemePath (url.data.map Char.toLower) = .error .invalidIpv6 := by
      simp [parsedSchemePath, h1', h2']
    unfold detect_stream_type
    rw [hp]

/-- Concrete instance of `stream_kind_classification`: the refinement
conjunct applied at an accepted URL, and the acceptance conjunct at a
bracket-free netloc. -/
theorem stream_kind_classification_witness :
    detect_stream_type "https://h/s.m3u8" =
      .ok (classifySpec "https".data "/s.m3u8".data) ∧
    (∃ scheme path,
      parsedSchemePath ("https://h/s".data.map Char.toLower) = .ok (scheme, path)) := by
  constructor
  · exact stream_kind_classification.1 "https://h/s.m3u8" "https".data "/s.m3u8".data rfl
  · exact stream_kind_classification.2.1 "https://h/s" rfl rfl

end RadioListener
